import Mathlib

/-!
Verification of the record-reconciliation and ownership-normalization pipeline of
src/gto_scorecard_app.py.

Modelling conventions (shallow embedding):
* Python strings are modelled as lists of Unicode code points (`Str := List Nat`);
  the source only ever manipulates code points (regex character classes,
  lower-casing, code-point string comparison), so this is faithful.
* pandas float columns are modelled as exact rationals.  The float value NaN,
  which the source produces through 0.0/0.0 in its min-max normalizations, is
  modelled by `none` in `QF := Option ℚ`; every arithmetic operation propagates
  `none`, comparisons with `none` are `false`, and the pandas skipna reductions
  (`min`, `max`, `sum`, `quantile`) drop `none` entries, exactly as pandas does.
  In this pipeline a zero divisor always comes with a zero numerator (the whole
  column is constant), so NaN is the only non-finite value that can ever be
  stored in a cell; the transient `600.0/0.0 = inf` that pandas would produce
  when the survivor set is empty is multiplied only into an empty column, hence
  modelling it by `none` as well is observationally equivalent.
-/

attribute [local semireducible] Rat.add Rat.mul Rat.sub Rat.inv Rat.ofScientific

/-- Codepoint string: a Python string as its list of Unicode code points. -/
abbrev Str := List Nat

/-- NaN-aware rational: `none` models the IEEE NaN produced by pandas float
arithmetic, `some q` an ordinary finite value. -/
abbrev QF := Option ℚ

/-- Addition; NaN propagates. -/
def qfAdd : QF → QF → QF
  | some a, some b => some (a + b)
  | _, _ => none

/-- Subtraction; NaN propagates. -/
def qfSub : QF → QF → QF
  | some a, some b => some (a - b)
  | _, _ => none

/-- Multiplication; NaN propagates. -/
def qfMul : QF → QF → QF
  | some a, some b => some (a * b)
  | _, _ => none

/-- Division; NaN propagates and a zero divisor yields `none` (in the source the
numerator is always zero whenever the divisor is, so the float result is NaN). -/
def qfDiv : QF → QF → QF
  | some a, some b => if b = 0 then none else some (a / b)
  | _, _ => none

/-- Strict greater-than; any comparison with NaN is false (pandas semantics). -/
def qfGT : QF → QF → Bool
  | some a, some b => decide (b < a)
  | _, _ => false

/-- Column minimum (pandas Series.min over the already NaN-filtered values);
`none` on an empty column. -/
def listMin : List ℚ → Option ℚ
  | [] => none
  | x :: xs => some (xs.foldl min x)

/-- Column maximum; `none` on an empty column. -/
def listMax : List ℚ → Option ℚ
  | [] => none
  | x :: xs => some (xs.foldl max x)

/-- Ascending sort of a rational column, as pandas quantile performs. -/
def sortQ (xs : List ℚ) : List ℚ := xs.insertionSort (· ≤ ·)

/-- Linear-interpolation 0.2-quantile, the pandas `Series.quantile(0.2)` with the
default interpolation: position `0.2 * (n - 1)` in the ascending sort,
interpolating linearly between the two neighbouring order statistics.
Returns `none` on an empty column (pandas returns NaN). -/
def quantile20 (xs : List ℚ) : Option ℚ :=
  match sortQ xs with
  | [] => none
  | y :: ys =>
    let s := y :: ys
    let h : ℚ := 0.2 * ((s.length : ℚ) - 1)
    let i : Nat := h.floor.toNat
    let lo := s.getD i y
    let hi := s.getD (i + 1) lo
    some (lo + (h - (i : ℚ)) * (hi - lo))

/-- One row of the merged table after `detect_and_rename_columns`, holding the
canonical columns the allocator (source lines 124-168) reads: `Name`, `Salary`,
`Ceiling`, `RG_ProjPts`, `RG_Ownership%` and the five DataGolf probability
columns. -/
structure Row where
  name : Str
  salary : ℚ
  ceiling : ℚ
  projPts : ℚ
  rgOwn : ℚ
  dgMakeCut : ℚ
  dgTop20 : ℚ
  dgTop10 : ℚ
  dgTop5 : ℚ
  dgWin : ℚ
deriving DecidableEq

/-- Salary column minimum, `df[Salary].min()` (source line 125). -/
def sMinOf (rows : List Row) : QF := listMin (rows.map (·.salary))

/-- Salary column maximum, `df[Salary].max()` (source line 125). -/
def sMaxOf (rows : List Row) : QF := listMax (rows.map (·.salary))

/-- The `RawBaseOwn%` column (source line 126):
`0.5 + 19.5 * ((Salary - s_min) / (s_max - s_min))`. -/
def rawBaseOwn (rows : List Row) (r : Row) : QF :=
  qfAdd (some 0.5) (qfMul (some 19.5)
    (qfDiv (qfSub (some r.salary) (sMinOf rows)) (qfSub (sMaxOf rows) (sMinOf rows))))

/-- The `DG_Composite` column (source lines 133-134): row mean of the five
DataGolf probability columns. -/
def dgComposite (r : Row) : ℚ :=
  (r.dgMakeCut + r.dgTop20 + r.dgTop10 + r.dgTop5 + r.dgWin) / 5

/-- Composite column minimum (source line 135). -/
def dgMinOf (rows : List Row) : QF := listMin (rows.map dgComposite)

/-- Composite column maximum (source line 135). -/
def dgMaxOf (rows : List Row) : QF := listMax (rows.map dgComposite)

/-- The `RawDGOwn%` column (source line 136):
`0.5 + 19.5 * ((DG_Composite - dg_min) / (dg_max - dg_min))`. -/
def rawDGOwn (rows : List Row) (r : Row) : QF :=
  qfAdd (some 0.5) (qfMul (some 19.5)
    (qfDiv (qfSub (some (dgComposite r)) (dgMinOf rows)) (qfSub (dgMaxOf rows) (dgMinOf rows))))

/-- The `PreElimOwn%` column (source line 143):
`0.5 * (RawBaseOwn% + RawDGOwn%)`. -/
def preElimOwn (rows : List Row) (r : Row) : QF :=
  qfMul (some 0.5) (qfAdd (rawBaseOwn rows r) (rawDGOwn rows r))

/-- The elimination threshold, `df[PreElimOwn].quantile(0.2)` (source line
151); pandas drops NaN entries before taking the quantile. -/
def thresholdOf (rows : List Row) : QF :=
  quantile20 ((rows.map (preElimOwn rows)).filterMap id)

/-- The survivor mask, `df[PreElimOwn] > threshold` (source line 152). -/
def isSurvivor (rows : List Row) (r : Row) : Bool :=
  qfGT (preElimOwn rows r) (thresholdOf rows)

/-- The rows selected by the survivor mask, `df.loc[survivors]`. -/
def survivorRows (rows : List Row) : List Row := rows.filter (isSurvivor rows)

/-- The survivor slice of the `PreElimOwn%` column, NaN entries dropped as the
pandas skipna reductions do. -/
def survivorPre (rows : List Row) : List ℚ :=
  ((survivorRows rows).map (preElimOwn rows)).filterMap id

/-- Survivor minimum `p_min` (source line 153). -/
def pMinOf (rows : List Row) : QF := listMin (survivorPre rows)

/-- Survivor maximum `p_max` (source line 153). -/
def pMaxOf (rows : List Row) : QF := listMax (survivorPre rows)

/-- The remapped survivor value `mapped` (source lines 154-155):
`0.7 + 21.5 * ((PreElimOwn% - p_min) / (p_max - p_min))`. -/
def mappedOwn (rows : List Row) (r : Row) : QF :=
  qfAdd (some 0.7) (qfMul (some 21.5)
    (qfDiv (qfSub (preElimOwn rows r) (pMinOf rows)) (qfSub (pMaxOf rows) (pMinOf rows))))

/-- The value `mapped.sum()` (source line 156); pandas `.sum()` skips NaN and
returns 0.0 on an all-NaN or empty column. -/
def mappedSum (rows : List Row) : ℚ :=
  (((survivorRows rows).map (mappedOwn rows)).filterMap id).sum

/-- The `FinalOwn%` column: initialized to 0.0 for every row (source line 150),
then overwritten on survivor rows with `mapped * (600.0 / mapped.sum())`
(source line 156). -/
def finalOwn (rows : List Row) (r : Row) : QF :=
  if isSurvivor rows r then
    qfMul (mappedOwn rows r) (qfDiv (some 600) (some (mappedSum rows)))
  else some 0

/-- One row of the final scorecard (source lines 163-168): the selected columns
`Name, Salary, Ceiling, RG_ProjPts, DG_Composite, Projected_Ownership%,
GTO_Ownership%`. -/
structure ScoreRow where
  name : Str
  salary : ℚ
  ceiling : ℚ
  projPts : ℚ
  composite : ℚ
  projectedOwn : ℚ
  gtoOwn : QF
deriving DecidableEq

/-- The rows of `df_score = df[df[FinalOwn] > 0]` (source line 163). -/
def scoreRows (rows : List Row) : List Row :=
  rows.filter (fun r => qfGT (finalOwn rows r) (some 0))

/-- The values `df.set_index(Name)[RG_Ownership].loc[nm]` returns: all
`RG_Ownership%` entries of rows named `nm`, in table order (a duplicated index
label yields one entry per matching row). -/
def lookupOwn (rows : List Row) (nm : Str) : List ℚ :=
  (rows.filter (fun r => r.name == nm)).map (·.rgOwn)

/-- Stage 5 final assembly (source lines 163-168).  The by-name lookup of line
165 produces one value per (score row, matching table row) pair; the `.values`
assignment succeeds only when that vector has exactly one entry per score row
(otherwise pandas raises a length-mismatch error, modelled by `none`), and then
attaches the values positionally. -/
def scorecard (rows : List Row) : Option (List ScoreRow) :=
  if ((scoreRows rows).flatMap (fun r => lookupOwn rows r.name)).length =
      (scoreRows rows).length then
    some (((scoreRows rows).zip
        ((scoreRows rows).flatMap (fun r => lookupOwn rows r.name))).map (fun p =>
      ⟨p.1.name, p.1.salary, p.1.ceiling, p.1.projPts, dgComposite p.1, p.2,
        finalOwn rows p.1⟩))
  else none

/-! Basic facts about the column reductions. -/

theorem foldl_min_le_init : ∀ (xs : List ℚ) (a : ℚ), xs.foldl min a ≤ a := by
  intro xs
  induction xs with
  | nil => intro a; simp
  | cons x xs ih =>
    intro a
    calc (x :: xs).foldl min a = xs.foldl min (min a x) := by simp [List.foldl_cons]
    _ ≤ min a x := ih (min a x)
    _ ≤ a := min_le_left a x

theorem foldl_min_le_mem : ∀ (xs : List ℚ) (a x : ℚ), x ∈ xs → xs.foldl min a ≤ x := by
  intro xs
  induction xs with
  | nil => intro a x hx; cases hx
  | cons y ys ih =>
    intro a x hx
    rcases List.mem_cons.1 hx with h | h
    · subst h
      calc (x :: ys).foldl min a = ys.foldl min (min a x) := by simp [List.foldl_cons]
      _ ≤ min a x := foldl_min_le_init ys (min a x)
      _ ≤ x := min_le_right a x
    · simpa [List.foldl_cons] using ih (min a y) x h

theorem foldl_min_mem_or : ∀ (xs : List ℚ) (a : ℚ), xs.foldl min a = a ∨ xs.foldl min a ∈ xs := by
  intro xs
  induction xs with
  | nil => intro a; left; rfl
  | cons y ys ih =>
    intro a
    rcases ih (min a y) with h | h
    · rcases min_choice a y with hm | hm
      · left; simpa [List.foldl_cons, hm] using h
      · right
        have hy : (y :: ys).foldl min a = y := by simp only [List.foldl_cons]; rw [h, hm]
        rw [hy]; exact List.mem_cons_self y ys
    · right; right; simpa [List.foldl_cons] using h

theorem init_le_foldl_max : ∀ (xs : List ℚ) (a : ℚ), a ≤ xs.foldl max a := by
  intro xs
  induction xs with
  | nil => intro a; simp
  | cons x xs ih =>
    intro a
    calc a ≤ max a x := le_max_left a x
    _ ≤ xs.foldl max (max a x) := ih (max a x)
    _ = (x :: xs).foldl max a := by simp [List.foldl_cons]

theorem mem_le_foldl_max : ∀ (xs : List ℚ) (a x : ℚ), x ∈ xs → x ≤ xs.foldl max a := by
  intro xs
  induction xs with
  | nil => intro a x hx; cases hx
  | cons y ys ih =>
    intro a x hx
    rcases List.mem_cons.1 hx with h | h
    · subst h
      calc x ≤ max a x := le_max_right a x
      _ ≤ ys.foldl max (max a x) := init_le_foldl_max ys (max a x)
      _ = (x :: ys).foldl max a := by simp [List.foldl_cons]
    · simpa [List.foldl_cons] using ih (max a y) x h

theorem foldl_max_mem_or : ∀ (xs : List ℚ) (a : ℚ), xs.foldl max a = a ∨ xs.foldl max a ∈ xs := by
  intro xs
  induction xs with
  | nil => intro a; left; rfl
  | cons y ys ih =>
    intro a
    rcases ih (max a y) with h | h
    · rcases max_choice a y with hm | hm
      · left; simpa [List.foldl_cons, hm] using h
      · right
        have hy : (y :: ys).foldl max a = y := by simp only [List.foldl_cons]; rw [h, hm]
        rw [hy]; exact List.mem_cons_self y ys
    · right; right; simpa [List.foldl_cons] using h

/-- Specification of `listMin` on a nonempty column. -/
theorem listMin_spec (xs : List ℚ) (h : xs ≠ []) :
    ∃ m, listMin xs = some m ∧ m ∈ xs ∧ ∀ x ∈ xs, m ≤ x := by
  match xs, h with
  | x :: ys, _ =>
    refine ⟨ys.foldl min x, rfl, ?_, ?_⟩
    · rcases foldl_min_mem_or ys x with h1 | h1
      · rw [h1]; exact List.mem_cons_self x ys
      · exact List.mem_cons_of_mem x h1
    · intro z hz
      rcases List.mem_cons.1 hz with h1 | h1
      · rw [h1]; exact foldl_min_le_init ys x
      · exact foldl_min_le_mem ys x z h1

/-- Specification of `listMax` on a nonempty column. -/
theorem listMax_spec (xs : List ℚ) (h : xs ≠ []) :
    ∃ m, listMax xs = some m ∧ m ∈ xs ∧ ∀ x ∈ xs, x ≤ m := by
  match xs, h with
  | x :: ys, _ =>
    refine ⟨ys.foldl max x, rfl, ?_, ?_⟩
    · rcases foldl_max_mem_or ys x with h1 | h1
      · rw [h1]; exact List.mem_cons_self x ys
      · exact List.mem_cons_of_mem x h1
    · intro z hz
      rcases List.mem_cons.1 hz with h1 | h1
      · rw [h1]; exact init_le_foldl_max ys x
      · exact mem_le_foldl_max ys x z h1

/-- On a pointwise `some` column, the pandas skipna filter keeps every value. -/
theorem filterMap_id_eq_map {α : Type} (l : List α) (f : α → QF) (g : α → ℚ)
    (h : ∀ a ∈ l, f a = some (g a)) : (l.map f).filterMap id = l.map g := by
  induction l with
  | nil => rfl
  | cons x xs ih =>
    have hx := h x (List.mem_cons_self x xs)
    simp only [List.map_cons, List.filterMap_cons, hx, id_eq]
    rw [ih fun a ha => h a (List.mem_cons_of_mem x ha)]

/-- On a pointwise NaN column, the pandas skipna filter keeps nothing. -/
theorem filterMap_id_eq_nil {α : Type} (l : List α) (f : α → QF)
    (h : ∀ a ∈ l, f a = none) : (l.map f).filterMap id = [] := by
  induction l with
  | nil => rfl
  | cons x xs ih =>
    have hx := h x (List.mem_cons_self x xs)
    simp only [List.map_cons, List.filterMap_cons, hx, id_eq]
    exact ih fun a ha => h a (List.mem_cons_of_mem x ha)

/-! Stage 4 under the nondegeneracy condition of the spec. -/

/-- Nondegenerate Stage-4 input: at least two elimination survivors carrying
distinct pre-elimination values. -/
def Nondeg4 (rows : List Row) : Prop :=
  ∃ x ∈ survivorPre rows, ∃ y ∈ survivorPre rows, x ≠ y

instance (rows : List Row) : Decidable (Nondeg4 rows) := by
  unfold Nondeg4; infer_instance

/-- Characterization of a true strict comparison. -/
theorem qfGT_true_iff (a b : QF) :
    qfGT a b = true ↔ ∃ x y, a = some x ∧ b = some y ∧ y < x := by
  cases a <;> cases b <;> simp [qfGT]

/-- The remapped survivor value as a rational, with the Stage-4 column
statistics read off through `Option.getD`. -/
def mVal (rows : List Row) (r : Row) : ℚ :=
  0.7 + 21.5 * (((preElimOwn rows r).getD 0 - (pMinOf rows).getD 0) /
    ((pMaxOf rows).getD 0 - (pMinOf rows).getD 0))

/-- Master lemma for Stage 4 on nondegenerate input: the survivor statistics
exist with `p_min < p_max`, every survivor has a well-defined remapped value in
[0.7, 22.2], the skipna sum is the plain sum of these values and is positive,
and the final ownership of every survivor is its remapped value times the single
factor `600 / mapped.sum()`. -/
theorem stage4_core (rows : List Row) (hnd : Nondeg4 rows) :
    ∃ m M, pMinOf rows = some m ∧ pMaxOf rows = some M ∧ m < M ∧
      survivorRows rows ≠ [] ∧
      (∀ r ∈ survivorRows rows,
        preElimOwn rows r = some ((preElimOwn rows r).getD 0) ∧
        m ≤ (preElimOwn rows r).getD 0 ∧ (preElimOwn rows r).getD 0 ≤ M ∧
        mappedOwn rows r = some (mVal rows r) ∧
        0.7 ≤ mVal rows r ∧ mVal rows r ≤ 22.2 ∧
        finalOwn rows r = some (mVal rows r * (600 / mappedSum rows))) ∧
      mappedSum rows = ((survivorRows rows).map (mVal rows)).sum ∧
      0 < mappedSum rows := by
  obtain ⟨x, hx, y, hy, hxy⟩ := hnd
  have hne : survivorPre rows ≠ [] := by intro h; rw [h] at hx; cases hx
  obtain ⟨m, hm0, hmmem, hmle⟩ := listMin_spec _ hne
  obtain ⟨M, hM0, hMmem, hMge⟩ := listMax_spec _ hne
  have hm : pMinOf rows = some m := hm0
  have hM : pMaxOf rows = some M := hM0
  have hmM : m < M := by
    by_contra hcon
    push_neg at hcon
    have hxm : x = m := le_antisymm (le_trans (hMge x hx) hcon) (hmle x hx)
    have hym : y = m := le_antisymm (le_trans (hMge y hy) hcon) (hmle y hy)
    exact hxy (hxm.trans hym.symm)
  have hMm : M - m ≠ 0 := sub_ne_zero.2 (ne_of_gt hmM)
  have hsne : survivorRows rows ≠ [] := by
    intro h; apply hne; unfold survivorPre; rw [h]; rfl
  have key : ∀ r ∈ survivorRows rows,
      preElimOwn rows r = some ((preElimOwn rows r).getD 0) ∧
      m ≤ (preElimOwn rows r).getD 0 ∧ (preElimOwn rows r).getD 0 ≤ M ∧
      mappedOwn rows r = some (mVal rows r) ∧
      0.7 ≤ mVal rows r ∧ mVal rows r ≤ 22.2 := by
    intro r hr
    have hrs : isSurvivor rows r = true := (List.mem_filter.1 hr).2
    obtain ⟨px, t, hpe, ht, hlt⟩ := (qfGT_true_iff _ _).1 hrs
    have hgetD : (preElimOwn rows r).getD 0 = px := by rw [hpe]; rfl
    have hpxmem : px ∈ survivorPre rows := by
      unfold survivorPre
      exact List.mem_filterMap.2 ⟨preElimOwn rows r, List.mem_map.2 ⟨r, hr, rfl⟩,
        by rw [hpe]; rfl⟩
    have hmpx : m ≤ px := hmle px hpxmem
    have hpxM : px ≤ M := hMge px hpxmem
    have hq0 : 0 ≤ (px - m) / (M - m) :=
      div_nonneg (sub_nonneg.2 hmpx) (le_of_lt (sub_pos.2 hmM))
    have hq1 : (px - m) / (M - m) ≤ 1 :=
      (div_le_one (sub_pos.2 hmM)).2 (sub_le_sub_right hpxM m)
    have hmv : mVal rows r = 0.7 + 21.5 * ((px - m) / (M - m)) := by
      unfold mVal; rw [hgetD, hm, hM]; simp only [Option.getD_some]
    have hmapped : mappedOwn rows r = some (mVal rows r) := by
      unfold mappedOwn
      rw [hpe, hm, hM, hmv]
      simp [qfSub, qfDiv, qfMul, qfAdd, hMm]
    refine ⟨by rw [hpe]; rfl, by rw [hgetD]; exact hmpx, by rw [hgetD]; exact hpxM,
      hmapped, ?_, ?_⟩
    · rw [hmv]; nlinarith
    · rw [hmv]; nlinarith
  have hsum : mappedSum rows = ((survivorRows rows).map (mVal rows)).sum := by
    unfold mappedSum
    rw [filterMap_id_eq_map _ _ _ (fun r hr => (key r hr).2.2.2.1)]
  have hpos : 0 < mappedSum rows := by
    rw [hsum]
    apply List.sum_pos
    · intro v hv
      obtain ⟨r, hr, rfl⟩ := List.mem_map.1 hv
      have h07 := (key r hr).2.2.2.2.1
      linarith
    · intro h
      exact hsne (List.map_eq_nil_iff.1 h)
  refine ⟨m, M, hm, hM, hmM, hsne, ?_, hsum, hpos⟩
  intro r hr
  obtain ⟨h1, h2, h3, h4, h5, h6⟩ := key r hr
  have hrs : isSurvivor rows r = true := (List.mem_filter.1 hr).2
  refine ⟨h1, h2, h3, h4, h5, h6, ?_⟩
  unfold finalOwn
  rw [if_pos hrs, h4]
  simp [qfDiv, qfMul, ne_of_gt hpos]

/-! Concrete example tables used by witnesses and counterexamples.  In each
example row the five probability fields are set to one common value, so the
row composite equals that value. -/

/-- Example row builder: name, salary, common probability value, projected
ownership. -/
def mkRow (nm : Str) (sal v own : ℚ) : Row := ⟨nm, sal, 50, 60, own, v, v, v, v, v⟩

/-- Three rows with distinct salaries and distinct composites; the survivor set
is the top two rows, with distinct pre-elimination values. -/
def exA : List Row := [mkRow [97] 1000 0.1 11, mkRow [98] 2000 0.2 12, mkRow [99] 3000 0.3 13]

/-- Two rows with all salaries equal: the Stage-1 divisor is zero. -/
def exB : List Row := [mkRow [97] 5000 0.1 11, mkRow [98] 5000 0.2 12]

/-- Two rows with distinct values: exactly one elimination survivor, so the
Stage-4 divisor is zero. -/
def exC : List Row := [mkRow [97] 1000 0.1 11, mkRow [98] 2000 0.2 12]

/-- C1: on nondegenerate input (at least two survivors with distinct
pre-elimination values), the final ownership of each survivor is its remapped value
times the single factor `600 / mapped.sum()`, and the final ownership summed
over the survivor rows is exactly 600. -/
theorem c1_fixed_sum (rows : List Row) (hnd : Nondeg4 rows) :
    (∀ r ∈ survivorRows rows,
      finalOwn rows r = qfMul (mappedOwn rows r) (qfDiv (some 600) (some (mappedSum rows)))) ∧
    (((survivorRows rows).map (finalOwn rows)).filterMap id).sum = 600 := by
  obtain ⟨m, M, hm, hM, hmM, hsne, hrows, hsum, hpos⟩ := stage4_core rows hnd
  constructor
  · intro r hr
    unfold finalOwn
    rw [if_pos (List.mem_filter.1 hr).2]
  · rw [filterMap_id_eq_map _ _ (fun r => mVal rows r * (600 / mappedSum rows))
      (fun r hr => (hrows r hr).2.2.2.2.2.2)]
    rw [List.sum_map_mul_right, ← hsum, mul_comm]
    exact div_mul_cancel₀ 600 (ne_of_gt hpos)

/-- Witness for C1 at the table `exA`. -/
theorem c1_witness :
    (((survivorRows exA).map (finalOwn exA)).filterMap id).sum = 600 :=
  (c1_fixed_sum exA (by decide)).2

/-- C8: on nondegenerate input the Stage-4 rescale preserves ratios between any
two survivors: final ownership ratio equals remapped value ratio. -/
theorem c8_ratio_preserved (rows : List Row) (hnd : Nondeg4 rows) (r1 r2 : Row)
    (h1 : r1 ∈ survivorRows rows) (h2 : r2 ∈ survivorRows rows) :
    (finalOwn rows r1).getD 0 / (finalOwn rows r2).getD 0 =
      (mappedOwn rows r1).getD 0 / (mappedOwn rows r2).getD 0 := by
  obtain ⟨m, M, hm, hM, hmM, hsne, hrows, hsum, hpos⟩ := stage4_core rows hnd
  obtain ⟨_, _, _, hm1, _, _, hf1⟩ := hrows r1 h1
  obtain ⟨_, _, _, hm2, _, _, hf2⟩ := hrows r2 h2
  rw [hf1, hf2, hm1, hm2]
  simp only [Option.getD_some]
  have hc : (600 : ℚ) / mappedSum rows ≠ 0 :=
    div_ne_zero (by norm_num) (ne_of_gt hpos)
  exact mul_div_mul_right _ _ hc

/-- Witness for C8 at the table `exA`, on its two survivor rows. -/
theorem c8_witness :
    (finalOwn exA (mkRow [98] 2000 0.2 12)).getD 0 /
        (finalOwn exA (mkRow [99] 3000 0.3 13)).getD 0 =
      (mappedOwn exA (mkRow [98] 2000 0.2 12)).getD 0 /
        (mappedOwn exA (mkRow [99] 3000 0.3 13)).getD 0 :=
  c8_ratio_preserved exA (by decide) _ _ (by decide) (by decide)

/-- General specification of the min-max linear map of Stages 1-2 on a column
with two distinct entries: every output is defined and lies in [0.5, 20], a
column minimum maps to exactly 0.5 and a column maximum to exactly 20. -/
theorem minmax_map_spec (xs : List ℚ) (x : ℚ) (hx : x ∈ xs)
    (hnd : ∃ a ∈ xs, ∃ b ∈ xs, a ≠ b) :
    ∃ v, qfAdd (some 0.5) (qfMul (some 19.5)
        (qfDiv (qfSub (some x) (listMin xs)) (qfSub (listMax xs) (listMin xs)))) = some v ∧
      0.5 ≤ v ∧ v ≤ 20 ∧
      ((∀ y ∈ xs, x ≤ y) → v = 0.5) ∧ ((∀ y ∈ xs, y ≤ x) → v = 20) := by
  obtain ⟨a, ha, b, hb, hab⟩ := hnd
  have hne : xs ≠ [] := by intro h; rw [h] at ha; cases ha
  obtain ⟨m, hm, hmmem, hmle⟩ := listMin_spec xs hne
  obtain ⟨M, hM, hMmem, hMge⟩ := listMax_spec xs hne
  have hmM : m < M := by
    by_contra hcon
    push_neg at hcon
    have h1 : a = m := le_antisymm (le_trans (hMge a ha) hcon) (hmle a ha)
    have h2 : b = m := le_antisymm (le_trans (hMge b hb) hcon) (hmle b hb)
    exact hab (h1.trans h2.symm)
  have hMm : M - m ≠ 0 := sub_ne_zero.2 (ne_of_gt hmM)
  have hq0 : 0 ≤ (x - m) / (M - m) :=
    div_nonneg (sub_nonneg.2 (hmle x hx)) (le_of_lt (sub_pos.2 hmM))
  have hq1 : (x - m) / (M - m) ≤ 1 :=
    (div_le_one (sub_pos.2 hmM)).2 (sub_le_sub_right (hMge x hx) m)
  refine ⟨0.5 + 19.5 * ((x - m) / (M - m)), ?_, by nlinarith, by nlinarith, ?_, ?_⟩
  · rw [hm, hM]; simp [qfSub, qfDiv, qfMul, qfAdd, hMm]
  · intro hmin
    have hxm : x = m := le_antisymm (hmin m hmmem) (hmle x hx)
    rw [hxm]
    simp
  · intro hmax
    have hxM : x = M := le_antisymm (hMge x hx) (hmax M hMmem)
    rw [hxM, div_self hMm]
    norm_num

/-- C4: when the salary column has two distinct entries and the composite
column has two distinct entries, every Stage-1 and Stage-2 output is defined
and lies in the closed interval [0.5, 20], with a row holding the column
minimum mapped to exactly 0.5 and a row holding the maximum to exactly 20. -/
theorem c4_minmax_range (rows : List Row)
    (hs : ∃ r1 ∈ rows, ∃ r2 ∈ rows, r1.salary ≠ r2.salary)
    (hd : ∃ r1 ∈ rows, ∃ r2 ∈ rows, dgComposite r1 ≠ dgComposite r2) :
    ∀ r ∈ rows,
      (∃ v, rawBaseOwn rows r = some v ∧ 0.5 ≤ v ∧ v ≤ 20 ∧
        ((∀ q ∈ rows, r.salary ≤ q.salary) → v = 0.5) ∧
        ((∀ q ∈ rows, q.salary ≤ r.salary) → v = 20)) ∧
      (∃ w, rawDGOwn rows r = some w ∧ 0.5 ≤ w ∧ w ≤ 20 ∧
        ((∀ q ∈ rows, dgComposite r ≤ dgComposite q) → w = 0.5) ∧
        ((∀ q ∈ rows, dgComposite q ≤ dgComposite r) → w = 20)) := by
  intro r hr
  constructor
  · have hx : r.salary ∈ rows.map (·.salary) := List.mem_map.2 ⟨r, hr, rfl⟩
    have hnd : ∃ a ∈ rows.map (·.salary), ∃ b ∈ rows.map (·.salary), a ≠ b := by
      obtain ⟨r1, h1, r2, h2, h12⟩ := hs
      exact ⟨r1.salary, List.mem_map.2 ⟨r1, h1, rfl⟩,
        r2.salary, List.mem_map.2 ⟨r2, h2, rfl⟩, h12⟩
    obtain ⟨v, hv, h05, h20, hmin, hmax⟩ := minmax_map_spec _ _ hx hnd
    refine ⟨v, hv, h05, h20, ?_, ?_⟩
    · intro h
      apply hmin
      intro y hy
      obtain ⟨q, hq, rfl⟩ := List.mem_map.1 hy
      exact h q hq
    · intro h
      apply hmax
      intro y hy
      obtain ⟨q, hq, rfl⟩ := List.mem_map.1 hy
      exact h q hq
  · have hx : dgComposite r ∈ rows.map dgComposite := List.mem_map.2 ⟨r, hr, rfl⟩
    have hnd : ∃ a ∈ rows.map dgComposite, ∃ b ∈ rows.map dgComposite, a ≠ b := by
      obtain ⟨r1, h1, r2, h2, h12⟩ := hd
      exact ⟨dgComposite r1, List.mem_map.2 ⟨r1, h1, rfl⟩,
        dgComposite r2, List.mem_map.2 ⟨r2, h2, rfl⟩, h12⟩
    obtain ⟨w, hw, h05, h20, hmin, hmax⟩ := minmax_map_spec _ _ hx hnd
    refine ⟨w, hw, h05, h20, ?_, ?_⟩
    · intro h
      apply hmin
      intro y hy
      obtain ⟨q, hq, rfl⟩ := List.mem_map.1 hy
      exact h q hq
    · intro h
      apply hmax
      intro y hy
      obtain ⟨q, hq, rfl⟩ := List.mem_map.1 hy
      exact h q hq

/-- Witness for C4 at the table `exA` and its minimum-salary row. -/
theorem c4_witness :
    ∃ v, rawBaseOwn exA (mkRow [97] 1000 0.1 11) = some v ∧ 0.5 ≤ v ∧ v ≤ 20 ∧ v = 0.5 := by
  obtain ⟨⟨v, hv, h1, h2, hmin, _⟩, _⟩ :=
    c4_minmax_range exA (by decide) (by decide) (mkRow [97] 1000 0.1 11) (by decide)
  exact ⟨v, hv, h1, h2, hmin (by decide)⟩

/-- Computation rule for the comparison on two finite values. -/
theorem qfGT_some_some (a b : ℚ) : qfGT (some a) (some b) = decide (b < a) := rfl

/-- C3 counterexample: in the two-row table `exC` the second row has
pre-elimination ownership strictly above the 20th-percentile threshold, yet its
final ownership is NaN - neither positive nor zero - and the row is absent from
the final scorecard, contradicting the claimed equivalence. -/
theorem c3_counterexample :
    qfGT (preElimOwn exC (mkRow [98] 2000 0.2 12)) (thresholdOf exC) = true ∧
    qfGT (finalOwn exC (mkRow [98] 2000 0.2 12)) (some 0) = false ∧
    finalOwn exC (mkRow [98] 2000 0.2 12) = none ∧
    mkRow [98] 2000 0.2 12 ∉ scoreRows exC := by decide

/-- C3 amended: under Stage-4 nondegeneracy (at least two survivors with
distinct pre-elimination values), the final ownership of a row is strictly positive
exactly when its pre-elimination ownership strictly exceeds the threshold;
every other row has final ownership exactly 0 and is absent from the scorecard
row set, while every survivor is present in it. -/
theorem c3_amended (rows : List Row) (hnd : Nondeg4 rows) :
    ∀ r ∈ rows,
      (qfGT (finalOwn rows r) (some 0) = true ↔
        qfGT (preElimOwn rows r) (thresholdOf rows) = true) ∧
      (qfGT (preElimOwn rows r) (thresholdOf rows) = false →
        finalOwn rows r = some 0 ∧ r ∉ scoreRows rows) ∧
      (qfGT (preElimOwn rows r) (thresholdOf rows) = true → r ∈ scoreRows rows) := by
  obtain ⟨m, M, hm, hM, hmM, hsne, hrows, hsum, hpos⟩ := stage4_core rows hnd
  intro r hr
  by_cases hs : isSurvivor rows r = true
  · have hrsv : r ∈ survivorRows rows := List.mem_filter.2 ⟨hr, hs⟩
    obtain ⟨_, _, _, _, h07, _, hf⟩ := hrows r hrsv
    have hfpos : qfGT (finalOwn rows r) (some 0) = true := by
      rw [hf, qfGT_some_some, decide_eq_true_iff]
      exact mul_pos (lt_of_lt_of_le (by norm_num) h07) (div_pos (by norm_num) hpos)
    have hpre : qfGT (preElimOwn rows r) (thresholdOf rows) = true := hs
    refine ⟨by rw [hfpos, hpre], ?_, ?_⟩
    · intro hcon
      rw [hcon] at hpre
      cases hpre
    · intro _
      exact List.mem_filter.2 ⟨hr, hfpos⟩
  · have hs' : isSurvivor rows r = false := by simpa using hs
    have hf0 : finalOwn rows r = some 0 := by
      unfold finalOwn
      rw [if_neg (by simp [hs'])]
    have hfneg : qfGT (finalOwn rows r) (some 0) = false := by
      rw [hf0, qfGT_some_some]
      simp
    have hpre : qfGT (preElimOwn rows r) (thresholdOf rows) = false := hs'
    refine ⟨by rw [hfneg, hpre], ?_, ?_⟩
    · intro _
      refine ⟨hf0, ?_⟩
      intro hmem
      have := (List.mem_filter.1 hmem).2
      rw [hfneg] at this
      cases this
    · intro hcon
      rw [hcon] at hpre
      cases hpre

/-- Witness for the amended C3 at the table `exA`: the equivalence on its
eliminated first row, and scorecard membership of its surviving third row. -/
theorem c3_witness :
    (qfGT (finalOwn exA (mkRow [97] 1000 0.1 11)) (some 0) = true ↔
      qfGT (preElimOwn exA (mkRow [97] 1000 0.1 11)) (thresholdOf exA) = true) ∧
    mkRow [99] 3000 0.3 13 ∈ scoreRows exA := by
  refine ⟨(c3_amended exA (by decide) _ (by decide)).1, ?_⟩
  exact (c3_amended exA (by decide) _ (by decide)).2.2 (by decide)

/-- C2 counterexample: on the all-equal-salary table `exB` the Stage-1 divisor
is zero, yet no error of any kind is raised: the Stage-1 column is NaN on every
row, NaN propagates to the pre-elimination column, and the run completes and
returns an (empty) scorecard. -/
theorem c2_counterexample :
    sMinOf exB = sMaxOf exB ∧
    rawBaseOwn exB (mkRow [97] 5000 0.1 11) = none ∧
    preElimOwn exB (mkRow [97] 5000 0.1 11) = none ∧
    scorecard exB = some [] := by decide

/-- C2 amended: when the Stage-1 min-max normalization has a zero divisor (all
salaries equal), the pipeline raises no typed error: the `RawBaseOwn%` of every row
is NaN, the NaN propagates into `PreElimOwn%`, the `FinalOwn%` of every row is
exactly 0, and the run completes, returning an empty final scorecard. -/
theorem c2_amended (rows : List Row)
    (heq : ∀ r ∈ rows, ∀ q ∈ rows, r.salary = q.salary) :
    (∀ r ∈ rows, rawBaseOwn rows r = none ∧ preElimOwn rows r = none ∧
      finalOwn rows r = some 0) ∧
    scoreRows rows = [] ∧ scorecard rows = some [] := by
  have hraw : ∀ r ∈ rows, rawBaseOwn rows r = none := by
    intro r hr
    have hne : rows.map (·.salary) ≠ [] := by
      intro h
      rw [List.map_eq_nil_iff] at h
      rw [h] at hr
      cases hr
    obtain ⟨m, hm0, hmmem, _⟩ := listMin_spec _ hne
    obtain ⟨M, hM0, hMmem, _⟩ := listMax_spec _ hne
    have hm : sMinOf rows = some m := hm0
    have hM : sMaxOf rows = some M := hM0
    have hMm : M = m := by
      obtain ⟨r1, h1, e1⟩ := List.mem_map.1 hmmem
      obtain ⟨r2, h2, e2⟩ := List.mem_map.1 hMmem
      rw [← e1, ← e2]
      exact heq r2 h2 r1 h1
    unfold rawBaseOwn
    rw [hm, hM, hMm]
    simp [qfSub, qfDiv, qfMul, qfAdd]
  have hpre : ∀ r ∈ rows, preElimOwn rows r = none := by
    intro r hr
    unfold preElimOwn
    rw [hraw r hr]
    cases rawDGOwn rows r <;> rfl
  have hfin : ∀ r ∈ rows, finalOwn rows r = some 0 := by
    intro r hr
    have hs : isSurvivor rows r = false := by
      unfold isSurvivor
      rw [hpre r hr]
      cases thresholdOf rows <;> rfl
    unfold finalOwn
    rw [if_neg (by simp [hs])]
  have hscore : scoreRows rows = [] := by
    unfold scoreRows
    rw [List.filter_eq_nil_iff]
    intro r hr
    rw [hfin r hr, qfGT_some_some]
    simp
  refine ⟨fun r hr => ⟨hraw r hr, hpre r hr, hfin r hr⟩, hscore, ?_⟩
  simp [scorecard, hscore]

/-- Witness for the amended C2 at the table `exB`. -/
theorem c2_witness :
    rawBaseOwn exB (mkRow [97] 5000 0.1 11) = none ∧ scorecard exB = some [] := by
  obtain ⟨hall, _, hcard⟩ := c2_amended exB (by decide)
  exact ⟨(hall _ (by decide)).1, hcard⟩

/-! Stage 5 assembly: the name-keyed lookup. -/

/-- Under globally distinct names, the by-name row lookup is a singleton. -/
theorem filter_name_eq_singleton (rows : List Row) (hnd : (rows.map (·.name)).Nodup)
    (r : Row) (hr : r ∈ rows) : rows.filter (fun q => q.name == r.name) = [r] := by
  induction rows with
  | nil => cases hr
  | cons a l ih =>
    rw [List.map_cons, List.nodup_cons] at hnd
    rcases List.mem_cons.1 hr with rfl | h
    · have hrest : l.filter (fun q => q.name == r.name) = [] := by
        rw [List.filter_eq_nil_iff]
        intro q hq hbeq
        have hqe : q.name = r.name := by simpa using hbeq
        exact hnd.1 (hqe ▸ List.mem_map.2 ⟨q, hq, rfl⟩)
      rw [List.filter_cons_of_pos (by simp), hrest]
    · have hname : (a.name == r.name) = false := by
        apply beq_eq_false_iff_ne.2
        intro he
        exact hnd.1 (he ▸ List.mem_map.2 ⟨r, h, rfl⟩)
      rw [List.filter_cons_of_neg (by simp [hname])]
      exact ih hnd.2 h

/-- A flatMap whose blocks are singletons is a map. -/
theorem flatMap_singleton_eq_map {α β : Type} (l : List α) (f : α → List β) (g : α → β)
    (h : ∀ a ∈ l, f a = [g a]) : l.flatMap f = l.map g := by
  induction l with
  | nil => rfl
  | cons a t ih =>
    rw [List.flatMap_cons, h a (List.mem_cons_self a t), List.map_cons,
      ih fun b hb => h b (List.mem_cons_of_mem a hb)]
    rfl

/-- Zipping a row list with a per-row value column and assembling score rows is
a plain map. -/
theorem zip_self_map_score (rows l : List Row) (g : Row → ℚ) :
    ((l.zip (l.map g)).map (fun p =>
      (⟨p.1.name, p.1.salary, p.1.ceiling, p.1.projPts, dgComposite p.1, p.2,
        finalOwn rows p.1⟩ : ScoreRow))) =
    l.map (fun r => ⟨r.name, r.salary, r.ceiling, r.projPts, dgComposite r, g r,
      finalOwn rows r⟩) := by
  induction l with
  | nil => rfl
  | cons a t ih =>
    rw [List.map_cons, List.zip_cons_cons, List.map_cons, ih]
    rfl

/-- A list is no longer than the sum of positive per-element counts. -/
theorem length_le_sum_counts {α : Type} (l : List α) (f : α → Nat)
    (h : ∀ a ∈ l, 1 ≤ f a) : l.length ≤ (l.map f).sum := by
  induction l with
  | nil => simp
  | cons a t ih =>
    rw [List.map_cons, List.sum_cons, List.length_cons]
    have h1 := h a (List.mem_cons_self a t)
    have h2 := ih fun b hb => h b (List.mem_cons_of_mem a hb)
    omega

/-- With every count positive and one count at least two, the sum of counts
strictly exceeds the length. -/
theorem length_lt_sum_counts {α : Type} (l : List α) (f : α → Nat)
    (h1 : ∀ a ∈ l, 1 ≤ f a) (h2 : ∃ a ∈ l, 2 ≤ f a) :
    l.length < (l.map f).sum := by
  induction l with
  | nil =>
    obtain ⟨a, ha, _⟩ := h2
    cases ha
  | cons a t ih =>
    rw [List.map_cons, List.sum_cons, List.length_cons]
    obtain ⟨b, hb, h2b⟩ := h2
    rcases List.mem_cons.1 hb with rfl | hbt
    · have ht := length_le_sum_counts t f fun x hx => h1 x (List.mem_cons_of_mem b hx)
      omega
    · have ha1 := h1 a (List.mem_cons_self a t)
      have := ih (fun x hx => h1 x (List.mem_cons_of_mem a hx)) ⟨b, hbt, h2b⟩
      omega

/-- Rows with a duplicate-free surviving table: tables `exD` (a duplicated name
confined to eliminated rows) and `exE` (a duplicated name among survivors). -/
def exD : List Row :=
  [mkRow [100] 1000 0.1 11, mkRow [100] 1100 0.2 12, mkRow [97] 1200 0.3 13,
   mkRow [98] 1400 0.5 14, mkRow [99] 1700 0.8 15, mkRow [101] 2000 1.1 16]

/-- Three rows in which the two surviving rows share one name. -/
def exE : List Row := [mkRow [97] 1000 0.1 11, mkRow [100] 2000 0.2 12, mkRow [100] 3000 0.3 13]

/-- C9 counterexample: in the six-row table `exD` two joined rows share the
name `[100]`, yet - because both duplicates are eliminated - the Stage-5
assembly succeeds and produces a scorecard, contradicting the claim that any
shared name makes the assembly fail. -/
theorem c9_counterexample :
    ¬ (exD.map (·.name)).Nodup ∧ (scorecard exD).isSome = true := by decide

/-- C9 amended: the Stage-5 by-name assembly succeeds whenever all joined-row
names are distinct, attaching to each surviving row its own projected ownership; it
fails (length-mismatched assignment) whenever the name of some surviving row is
shared by two or more joined rows. -/
theorem c9_amended (rows : List Row) :
    ((rows.map (·.name)).Nodup →
      scorecard rows = some ((scoreRows rows).map (fun r =>
        ⟨r.name, r.salary, r.ceiling, r.projPts, dgComposite r, r.rgOwn,
          finalOwn rows r⟩))) ∧
    ((∃ r ∈ scoreRows rows, 2 ≤ (rows.filter (fun q => q.name == r.name)).length) →
      scorecard rows = none) := by
  constructor
  · intro hnd
    have hlook : ∀ r ∈ scoreRows rows, lookupOwn rows r.name = [r.rgOwn] := by
      intro r hr
      unfold lookupOwn
      rw [filter_name_eq_singleton rows hnd r (List.mem_filter.1 hr).1]
      rfl
    unfold scorecard
    rw [flatMap_singleton_eq_map (scoreRows rows) _ (fun r => r.rgOwn) hlook,
      List.length_map, if_pos rfl, zip_self_map_score]
  · rintro ⟨r0, hr0, h2⟩
    have hge : ∀ r ∈ scoreRows rows, 1 ≤ (lookupOwn rows r.name).length := by
      intro r hr
      unfold lookupOwn
      rw [List.length_map]
      have hmem : r ∈ rows.filter (fun q => q.name == r.name) :=
        List.mem_filter.2 ⟨(List.mem_filter.1 hr).1, by simp⟩
      exact List.length_pos.2 (List.ne_nil_of_mem hmem)
    have h2l : 2 ≤ (lookupOwn rows r0.name).length := by
      unfold lookupOwn
      rw [List.length_map]
      exact h2
    have hlen : (scoreRows rows).length <
        ((scoreRows rows).flatMap (fun r => lookupOwn rows r.name)).length := by
      rw [List.length_flatMap]
      exact length_lt_sum_counts _ _ hge ⟨r0, hr0, h2l⟩
    unfold scorecard
    rw [if_neg (by omega)]

/-- Witness for the amended C9: success with own values on the distinct-name
table `exA`, failure on the table `exE` whose surviving rows share a name. -/
theorem c9_witness :
    scorecard exA = some ((scoreRows exA).map (fun r =>
      ⟨r.name, r.salary, r.ceiling, r.projPts, dgComposite r, r.rgOwn,
        finalOwn exA r⟩)) ∧
    scorecard exE = none :=
  ⟨(c9_amended exA).1 (by decide), (c9_amended exE).2 (by decide)⟩

/-! The name normalizer (source lines 18-22):
`re.sub(r"[^a-zA-Z\s]", "", str(name)).lower().strip()`, split on whitespace,
sort the tokens, join with single spaces.  Strings are lists of code points;
the regex class `\s` is the whitespace class {9, 10, 11, 12, 13, 32}. -/

/-- Whitespace code points (the regex class backslash-s on ASCII input). -/
def isWS (c : Nat) : Bool :=
  decide (c = 32 ∨ c = 9 ∨ c = 10 ∨ c = 13 ∨ c = 11 ∨ c = 12)

/-- ASCII letter code points, the regex class a-zA-Z. -/
def isAlphaCP (c : Nat) : Bool :=
  decide ((65 ≤ c ∧ c ≤ 90) ∨ (97 ≤ c ∧ c ≤ 122))

/-- Code points kept by `re.sub(r"[^a-zA-Z\s]", "", .)`. -/
def keepCP (c : Nat) : Bool := isAlphaCP c || isWS c

/-- Python `str.lower` on the code points that can survive the regex filter. -/
def lowerCP (c : Nat) : Nat := if 65 ≤ c ∧ c ≤ 90 then c + 32 else c

/-- The composition `re.sub(r"[^a-zA-Z\s]", "", s).lower()` (source line 19). -/
def cleanStr (s : Str) : Str := (s.filter keepCP).map lowerCP

/-- Python `str.strip()`: drop leading and trailing whitespace. -/
def stripStr (s : Str) : Str := ((s.dropWhile isWS).reverse.dropWhile isWS).reverse

/-- Accumulator worker for `str.split()`: split on whitespace runs, dropping
empty fields. -/
def splitWSAux : Str → Str → List Str
  | [], acc => if acc.isEmpty then [] else [acc.reverse]
  | c :: cs, acc =>
    if isWS c then
      (if acc.isEmpty then splitWSAux cs [] else acc.reverse :: splitWSAux cs [])
    else splitWSAux cs (c :: acc)

/-- Python `str.split()` with no separator (source line 20). -/
def splitWS (s : Str) : List Str := splitWSAux s []

/-- Code-point-wise lexicographic string comparison, Python `<=` on str, which
is what `list.sort()` uses (source line 21). -/
def tokLEb : Str → Str → Bool
  | [], _ => true
  | _ :: _, [] => false
  | a :: as, b :: bs => if a < b then true else if b < a then false else tokLEb as bs

/-- The comparison as a relation. -/
def tokLE (a b : Str) : Prop := tokLEb a b = true

instance : DecidableRel tokLE := fun a b => inferInstanceAs (Decidable (tokLEb a b = true))

/-- Python `list.sort()` on the tokens (source line 21): a stable sort by the
lexicographic order; on a total antisymmetric order any sort agrees. -/
def sortToks (ts : List Str) : List Str := ts.insertionSort tokLE

/-- Python `" ".join(tokens)` (source line 22). -/
def joinSp : List Str → Str
  | [] => []
  | [t] => t
  | t :: ts => t ++ 32 :: joinSp ts

/-- The function `normalize_name` (source lines 18-22). -/
def normalize_name (s : Str) : Str :=
  joinSp (sortToks (splitWS (stripStr (cleanStr s))))

/-- Code points of a Lean string literal, for readable example inputs. -/
def strCP (s : String) : Str := s.toList.map Char.toNat

theorem tokLEb_total : ∀ a b : Str, tokLEb a b = true ∨ tokLEb b a = true := by
  intro a
  induction a with
  | nil => intro b; left; rfl
  | cons x xs ih =>
    intro b
    cases b with
    | nil => right; rfl
    | cons y ys =>
      by_cases hxy : x < y
      · left; simp [tokLEb, hxy]
      · by_cases hyx : y < x
        · right; simp [tokLEb, hyx]
        · rcases ih ys with h | h
          · left; simp [tokLEb, hxy, hyx, h]
          · right; simp [tokLEb, hxy, hyx, h]

theorem tokLEb_trans : ∀ a b c : Str,
    tokLEb a b = true → tokLEb b c = true → tokLEb a c = true := by
  intro a
  induction a with
  | nil => intro b c _ _; rfl
  | cons x xs ih =>
    intro b c hab hbc
    cases b with
    | nil => simp [tokLEb] at hab
    | cons y ys =>
      cases c with
      | nil => simp [tokLEb] at hbc
      | cons z zs =>
        simp only [tokLEb] at hab hbc ⊢
        rcases Nat.lt_trichotomy x y with hxy | hxy | hxy
        · rcases Nat.lt_trichotomy y z with hyz | hyz | hyz
          · simp [Nat.lt_trans hxy hyz]
          · subst hyz; simp [hxy]
          · rw [if_neg (Nat.lt_asymm hyz), if_pos hyz] at hbc; cases hbc
        · subst hxy
          rw [if_neg (lt_irrefl x), if_neg (lt_irrefl x)] at hab
          rcases Nat.lt_trichotomy x z with hyz | hyz | hyz
          · simp [hyz]
          · subst hyz
            rw [if_neg (lt_irrefl x), if_neg (lt_irrefl x)] at hbc ⊢
            exact ih ys zs hab hbc
          · rw [if_neg (Nat.lt_asymm hyz), if_pos hyz] at hbc; cases hbc
        · rw [if_neg (Nat.lt_asymm hxy), if_pos hxy] at hab; cases hab

theorem tokLEb_antisymm : ∀ a b : Str,
    tokLEb a b = true → tokLEb b a = true → a = b := by
  intro a
  induction a with
  | nil =>
    intro b _ hba
    cases b with
    | nil => rfl
    | cons y ys => simp [tokLEb] at hba
  | cons x xs ih =>
    intro b hab hba
    cases b with
    | nil => simp [tokLEb] at hab
    | cons y ys =>
      simp only [tokLEb] at hab hba
      rcases Nat.lt_trichotomy x y with hxy | hxy | hxy
      · rw [if_neg (Nat.lt_asymm hxy), if_pos hxy] at hba; cases hba
      · subst hxy
        rw [if_neg (lt_irrefl x), if_neg (lt_irrefl x)] at hab hba
        rw [ih ys hab hba]
      · rw [if_neg (Nat.lt_asymm hxy), if_pos hxy] at hab; cases hab

instance : IsTotal Str tokLE := ⟨tokLEb_total⟩

instance : IsTrans Str tokLE := ⟨tokLEb_trans⟩

instance : IsAntisymm Str tokLE := ⟨tokLEb_antisymm⟩

/-- Sorting is invariant under permutation of the input. -/
theorem sortToks_eq_of_perm {ts us : List Str} (h : ts.Perm us) :
    sortToks ts = sortToks us :=
  List.eq_of_perm_of_sorted
    ((List.perm_insertionSort tokLE ts).trans (h.trans (List.perm_insertionSort tokLE us).symm))
    (List.sorted_insertionSort tokLE ts) (List.sorted_insertionSort tokLE us)

/-- Sorting an already sorted list changes nothing. -/
theorem sortToks_eq_self_of_sorted {ts : List Str} (h : List.Sorted tokLE ts) :
    sortToks ts = ts :=
  List.eq_of_perm_of_sorted (List.perm_insertionSort tokLE ts)
    (List.sorted_insertionSort tokLE ts) h

/-! Facts about splitting, stripping and cleaning. -/

theorem isEmpty_true_iff {α : Type} {l : List α} : l.isEmpty = true ↔ l = [] := by
  cases l <;> simp

theorem isEmpty_false_iff {α : Type} {l : List α} : l.isEmpty = false ↔ l ≠ [] := by
  cases l <;> simp

/-- Collecting a whitespace-free token prefix into the accumulator. -/
theorem splitWSAux_token (tok : Str) (htok : ∀ c ∈ tok, isWS c = false) :
    ∀ (rest acc : Str), splitWSAux (tok ++ rest) acc = splitWSAux rest (tok.reverse ++ acc) := by
  induction tok with
  | nil => intro rest acc; simp
  | cons c t ih =>
    intro rest acc
    have hc : isWS c = false := htok c (List.mem_cons_self c t)
    have ht : ∀ x ∈ t, isWS x = false := fun x hx => htok x (List.mem_cons_of_mem c hx)
    rw [List.cons_append]
    simp only [splitWSAux, hc]
    rw [ih ht rest (c :: acc)]
    simp [List.append_assoc]

/-- Splitting an all-whitespace string only flushes the accumulator. -/
theorem splitWSAux_ws_all (w : Str) (hw : ∀ c ∈ w, isWS c = true) :
    ∀ acc : Str, splitWSAux w acc = if acc.isEmpty then [] else [acc.reverse] := by
  induction w with
  | nil => intro acc; rfl
  | cons c cs ih =>
    intro acc
    have hc : isWS c = true := hw c (List.mem_cons_self c cs)
    have hcs : ∀ x ∈ cs, isWS x = true := fun x hx => hw x (List.mem_cons_of_mem c hx)
    simp only [splitWSAux, hc]
    by_cases ha : acc.isEmpty
    · simp [ha, ih hcs]
    · simp [ha, ih hcs]

/-- Trailing whitespace never affects the split. -/
theorem splitWSAux_append_ws (w : Str) (hw : ∀ c ∈ w, isWS c = true) :
    ∀ (t acc : Str), splitWSAux (t ++ w) acc = splitWSAux t acc := by
  intro t
  induction t with
  | nil =>
    intro acc
    rw [List.nil_append, splitWSAux_ws_all w hw acc]
    rfl
  | cons c cs ih =>
    intro acc
    rw [List.cons_append]
    simp only [splitWSAux]
    by_cases hc : isWS c
    · simp only [hc, if_true]
      by_cases ha : acc.isEmpty <;> simp [ha, ih]
    · simp only [Bool.not_eq_true] at hc
      simp [hc, ih]

/-- Leading whitespace never affects the split. -/
theorem splitWS_dropWhile (s : Str) : splitWS (s.dropWhile isWS) = splitWS s := by
  induction s with
  | nil => rfl
  | cons c cs ih =>
    rw [List.dropWhile_cons]
    by_cases hc : isWS c
    · rw [if_pos hc]
      rw [ih]
      show splitWS cs = splitWSAux (c :: cs) []
      simp [splitWSAux, hc, splitWS]
    · rw [if_neg hc]

/-- Python `str.strip()` does not change `str.split()` (source line 19 versus
line 20): splitting already ignores boundary whitespace. -/
theorem splitWS_strip (s : Str) : splitWS (stripStr s) = splitWS s := by
  have h1 : splitWS (s.dropWhile isWS) = splitWS s := splitWS_dropWhile s
  have hdecomp : stripStr s ++ ((s.dropWhile isWS).reverse.takeWhile isWS).reverse =
      s.dropWhile isWS := by
    unfold stripStr
    rw [← List.reverse_append, List.takeWhile_append_dropWhile, List.reverse_reverse]
  have hw : ∀ c ∈ ((s.dropWhile isWS).reverse.takeWhile isWS).reverse, isWS c = true := by
    intro c hc
    rw [List.mem_reverse] at hc
    exact List.mem_takeWhile_imp hc
  calc splitWS (stripStr s)
      = splitWSAux (stripStr s ++ ((s.dropWhile isWS).reverse.takeWhile isWS).reverse) [] :=
        (splitWSAux_append_ws _ hw _ []).symm
    _ = splitWS (s.dropWhile isWS) := by rw [hdecomp]; rfl
    _ = splitWS s := h1

theorem cleanStr_cons (c : Nat) (s : Str) :
    cleanStr (c :: s) = if keepCP c then lowerCP c :: cleanStr s else cleanStr s := by
  unfold cleanStr
  rw [List.filter_cons]
  by_cases h : keepCP c <;> simp [h]

theorem cleanStr_reverse (s : Str) : cleanStr s.reverse = (cleanStr s).reverse := by
  unfold cleanStr
  rw [List.filter_reverse, List.map_reverse]

/-- Lower-casing fixes whitespace. -/
theorem lowerCP_ws {c : Nat} (h : isWS c = true) : lowerCP c = c := by
  unfold isWS at h
  rw [decide_eq_true_iff] at h
  unfold lowerCP
  rw [if_neg (by omega)]

/-- Lower-casing a letter gives a lowercase letter. -/
theorem lowerCP_alpha {c : Nat} (h : isAlphaCP c = true) :
    97 ≤ lowerCP c ∧ lowerCP c ≤ 122 := by
  unfold isAlphaCP at h
  rw [decide_eq_true_iff] at h
  unfold lowerCP
  split_ifs with h2 <;> omega

/-- A lowercase letter is not whitespace. -/
theorem not_ws_of_lower {c : Nat} (h : 97 ≤ c ∧ c ≤ 122) : isWS c = false := by
  unfold isWS
  rw [decide_eq_false_iff_not]
  omega

/-- Whitespace survives the regex filter. -/
theorem keep_of_ws {c : Nat} (h : isWS c = true) : keepCP c = true := by
  unfold keepCP
  rw [h, Bool.or_true]

/-- Splitting commutes with cleaning: cleaning keeps every whitespace character
in place, so the split boundaries are preserved and each raw token is cleaned
in place, disappearing when nothing of it remains. -/
theorem splitWSAux_clean (s : Str) :
    ∀ acc : Str, splitWSAux (cleanStr s) (cleanStr acc) =
      ((splitWSAux s acc).map cleanStr).filter (fun t => !t.isEmpty) := by
  induction s with
  | nil =>
    intro acc
    show splitWSAux [] (cleanStr acc) = _
    simp only [splitWSAux]
    by_cases ha : acc.isEmpty
    · have : acc = [] := isEmpty_true_iff.1 ha
      subst this
      rfl
    · rw [if_neg ha]
      by_cases hca : (cleanStr acc).isEmpty
      · rw [if_pos hca]
        simp [cleanStr_reverse, isEmpty_true_iff.1 hca]
      · rw [if_neg hca]
        simp only [List.map_cons, List.map_nil, List.filter]
        rw [cleanStr_reverse]
        have : ((cleanStr acc).reverse.isEmpty) = false := by
          rw [isEmpty_false_iff]
          intro h
          rw [List.reverse_eq_nil_iff] at h
          exact hca (isEmpty_true_iff.2 h)
        simp [this]
  | cons c cs ih =>
    intro acc
    by_cases hws : isWS c
    · have hkeep : keepCP c = true := keep_of_ws hws
      have hlow : lowerCP c = c := lowerCP_ws hws
      rw [cleanStr_cons, if_pos hkeep, hlow]
      simp only [splitWSAux, hws, if_true]
      by_cases ha : acc.isEmpty
      · have hca : (cleanStr acc).isEmpty = true := by
          rw [isEmpty_true_iff.1 ha]; rfl
        rw [if_pos hca, if_pos ha]
        have := ih []
        simp only [show cleanStr [] = [] from rfl] at this
        exact this
      · rw [if_neg ha]
        by_cases hca : (cleanStr acc).isEmpty
        · rw [if_pos hca]
          simp only [List.map_cons, List.filter]
          rw [cleanStr_reverse]
          have hrev : ((cleanStr acc).reverse.isEmpty) = true := by
            rw [isEmpty_true_iff.1 hca]; rfl
          rw [hrev]
          simp only [Bool.not_true]
          have := ih []
          simp only [show cleanStr [] = [] from rfl] at this
          exact this
        · rw [if_neg hca]
          simp only [List.map_cons, List.filter]
          rw [cleanStr_reverse]
          have hrev : ((cleanStr acc).reverse.isEmpty) = false := by
            rw [isEmpty_false_iff]
            intro h
            rw [List.reverse_eq_nil_iff] at h
            exact hca (isEmpty_true_iff.2 h)
          rw [hrev]
          simp only [Bool.not_false]
          have := ih []
          simp only [show cleanStr [] = [] from rfl] at this
          rw [this]
    · by_cases hk : keepCP c
      · have halpha : isAlphaCP c = true := by
          unfold keepCP at hk
          simp only [Bool.or_eq_true] at hk
          rcases hk with h | h
          · exact h
          · exact absurd h hws
        have hlnw : isWS (lowerCP c) = false := not_ws_of_lower (lowerCP_alpha halpha)
        rw [cleanStr_cons, if_pos hk]
        simp only [splitWSAux, hlnw, hws]
        simp only [Bool.false_eq_true, if_false]
        have hcc : cleanStr (c :: acc) = lowerCP c :: cleanStr acc := by
          rw [cleanStr_cons, if_pos hk]
        rw [← hcc]
        exact ih (c :: acc)
      · rw [cleanStr_cons, if_neg hk]
        have hwsf : isWS c = false := by
          simpa using hws
        simp only [splitWSAux, hwsf]
        simp only [Bool.false_eq_true, if_false]
        have hcc : cleanStr (c :: acc) = cleanStr acc := by
          rw [cleanStr_cons, if_neg hk]
        rw [← hcc]
        exact ih (c :: acc)

/-- Splitting after cleaning equals cleaning each raw token and dropping the
tokens that clean away entirely. -/
theorem splitWS_clean (s : Str) :
    splitWS (cleanStr s) = ((splitWS s).map cleanStr).filter (fun t => !t.isEmpty) :=
  splitWSAux_clean s []

/-- The strip step is invisible to the normalizer. -/
theorem normalize_name_eq (s : Str) :
    normalize_name s = joinSp (sortToks (splitWS (cleanStr s))) := by
  unfold normalize_name
  rw [splitWS_strip]

/-- C7: name normalization is invariant under permutation of the
whitespace-separated tokens, both of the raw name string and of its cleaned
form (the latter covers "Last, First" versus "First Last", whose raw tokens
differ by the comma but whose cleaned tokens are permutations). -/
theorem c7_token_perm_invariant :
    (∀ s t : Str, (splitWS s).Perm (splitWS t) → normalize_name s = normalize_name t) ∧
    (∀ s t : Str, (splitWS (cleanStr s)).Perm (splitWS (cleanStr t)) →
      normalize_name s = normalize_name t) := by
  have key : ∀ s t : Str, (splitWS (cleanStr s)).Perm (splitWS (cleanStr t)) →
      normalize_name s = normalize_name t := by
    intro s t h
    rw [normalize_name_eq, normalize_name_eq, sortToks_eq_of_perm h]
  refine ⟨?_, key⟩
  intro s t h
  apply key
  rw [splitWS_clean, splitWS_clean]
  exact (h.map cleanStr).filter _

/-- Witness for C7: "John Smith" and "Smith John" normalize identically, and so
do "Rahm, Jon" and "Jon Rahm". -/
theorem c7_witness :
    normalize_name (strCP "John Smith") = normalize_name (strCP "Smith John") ∧
    normalize_name (strCP "Rahm, Jon") = normalize_name (strCP "Jon Rahm") :=
  ⟨c7_token_perm_invariant.1 _ _ (by decide), c7_token_perm_invariant.2 _ _ (by decide)⟩

/-! Shape of the normalizer output, for C10. -/

/-- Tokens produced by the split are nonempty, whitespace-free, and drawn from
the input. -/
theorem splitWSAux_tokens (s : Str) :
    ∀ acc : Str, (∀ c ∈ acc, isWS c = false) →
      ∀ t ∈ splitWSAux s acc, t ≠ [] ∧ ∀ c ∈ t, isWS c = false ∧ (c ∈ s ∨ c ∈ acc) := by
  induction s with
  | nil =>
    intro acc hacc t ht
    simp only [splitWSAux] at ht
    by_cases ha : acc.isEmpty
    · rw [if_pos ha] at ht; cases ht
    · rw [if_neg ha] at ht
      rcases List.mem_singleton.1 ht with rfl
      constructor
      · intro he
        rw [List.reverse_eq_nil_iff] at he
        exact (isEmpty_false_iff.1 (by simpa using ha)) he
      · intro c hc
        rw [List.mem_reverse] at hc
        exact ⟨hacc c hc, Or.inr hc⟩
  | cons d ds ih =>
    intro acc hacc t ht
    simp only [splitWSAux] at ht
    by_cases hd : isWS d
    · rw [if_pos hd] at ht
      have hemp : ∀ c ∈ ([] : Str), isWS c = false := by intro c hc; cases hc
      by_cases ha : acc.isEmpty
      · rw [if_pos ha] at ht
        obtain ⟨h1, h2⟩ := ih [] hemp t ht
        refine ⟨h1, fun c hc => ⟨(h2 c hc).1, ?_⟩⟩
        rcases (h2 c hc).2 with h | h
        · exact Or.inl (List.mem_cons_of_mem d h)
        · cases h
      · rw [if_neg ha] at ht
        rcases List.mem_cons.1 ht with rfl | ht2
        · constructor
          · intro he
            rw [List.reverse_eq_nil_iff] at he
            exact (isEmpty_false_iff.1 (by simpa using ha)) he
          · intro c hc
            rw [List.mem_reverse] at hc
            exact ⟨hacc c hc, Or.inr hc⟩
        · obtain ⟨h1, h2⟩ := ih [] hemp t ht2
          refine ⟨h1, fun c hc => ⟨(h2 c hc).1, ?_⟩⟩
          rcases (h2 c hc).2 with h | h
          · exact Or.inl (List.mem_cons_of_mem d h)
          · cases h
    · rw [if_neg hd] at ht
      have hdf : isWS d = false := by simpa using hd
      have hacc2 : ∀ c ∈ d :: acc, isWS c = false := by
        intro c hc
        rcases List.mem_cons.1 hc with rfl | h
        · exact hdf
        · exact hacc c h
      obtain ⟨h1, h2⟩ := ih (d :: acc) hacc2 t ht
      refine ⟨h1, fun c hc => ⟨(h2 c hc).1, ?_⟩⟩
      rcases (h2 c hc).2 with h | h
      · exact Or.inl (List.mem_cons_of_mem d h)
      · rcases List.mem_cons.1 h with rfl | h3
        · exact Or.inl (List.mem_cons_self c ds)
        · exact Or.inr h3

theorem splitWS_tokens (s : Str) :
    ∀ t ∈ splitWS s, t ≠ [] ∧ ∀ c ∈ t, isWS c = false ∧ c ∈ s := by
  intro t ht
  obtain ⟨h1, h2⟩ := splitWSAux_tokens s [] (by intro c hc; cases hc) t ht
  refine ⟨h1, fun c hc => ⟨(h2 c hc).1, ?_⟩⟩
  rcases (h2 c hc).2 with h | h
  · exact h
  · cases h

/-- Characters of the cleaned string come from kept, lower-cased originals. -/
theorem mem_cleanStr {c : Nat} {s : Str} (h : c ∈ cleanStr s) :
    ∃ d ∈ s, keepCP d = true ∧ c = lowerCP d := by
  unfold cleanStr at h
  obtain ⟨d, hd, rfl⟩ := List.mem_map.1 h
  obtain ⟨hds, hkeep⟩ := List.mem_filter.1 hd
  exact ⟨d, hds, hkeep, rfl⟩

/-- A non-whitespace character of the cleaned string is a lowercase letter. -/
theorem clean_char_lower {c : Nat} {s : Str} (hc : c ∈ cleanStr s)
    (hnw : isWS c = false) : 97 ≤ c ∧ c ≤ 122 := by
  obtain ⟨d, _, hkeep, rfl⟩ := mem_cleanStr hc
  unfold keepCP at hkeep
  simp only [Bool.or_eq_true] at hkeep
  rcases hkeep with ha | hw
  · exact lowerCP_alpha ha
  · rw [lowerCP_ws hw] at hnw
    rw [hw] at hnw
    cases hnw

/-- Characters of the stripped string come from the original. -/
theorem mem_of_mem_dropWhile {α : Type} {p : α → Bool} {a : α} :
    ∀ {l : List α}, a ∈ l.dropWhile p → a ∈ l := by
  intro l
  induction l with
  | nil => intro h; exact h
  | cons x xs ih =>
    intro h
    rw [List.dropWhile_cons] at h
    by_cases hp : p x
    · rw [if_pos hp] at h
      exact List.mem_cons_of_mem x (ih h)
    · rw [if_neg hp] at h
      exact h

theorem mem_of_mem_strip {c : Nat} {s : Str} (h : c ∈ stripStr s) : c ∈ s := by
  unfold stripStr at h
  rw [List.mem_reverse] at h
  have h2 := mem_of_mem_dropWhile h
  rw [List.mem_reverse] at h2
  exact mem_of_mem_dropWhile h2

/-- Cleaning fixes a string of lowercase letters and spaces. -/
theorem cleanStr_eq_self (s : Str) (h : ∀ c ∈ s, (97 ≤ c ∧ c ≤ 122) ∨ c = 32) :
    cleanStr s = s := by
  unfold cleanStr
  have hfilter : s.filter keepCP = s := by
    rw [List.filter_eq_self]
    intro c hc
    unfold keepCP isAlphaCP isWS
    rcases h c hc with hl | h32
    · simp only [Bool.or_eq_true, decide_eq_true_iff]
      exact Or.inl (Or.inr hl)
    · simp only [Bool.or_eq_true, decide_eq_true_iff]
      exact Or.inr (Or.inl h32)
  rw [hfilter]
  have hmap : ∀ c ∈ s, lowerCP c = c := by
    intro c hc
    unfold lowerCP
    rcases h c hc with hl | h32
    · rw [if_neg (by omega)]
    · rw [if_neg (by omega)]
  calc s.map lowerCP = s.map id := List.map_congr_left hmap
    _ = s := List.map_id s

/-- Splitting the space-joined list of nonempty whitespace-free tokens
recovers exactly those tokens. -/
theorem splitWS_joinSp (ts : List Str)
    (h : ∀ t ∈ ts, t ≠ [] ∧ ∀ c ∈ t, isWS c = false) :
    splitWS (joinSp ts) = ts := by
  induction ts with
  | nil => rfl
  | cons t us ih =>
    obtain ⟨ht1, ht2⟩ := h t (List.mem_cons_self t us)
    have htrev : (t.reverse.isEmpty) = false := by
      rw [isEmpty_false_iff]
      intro he
      rw [List.reverse_eq_nil_iff] at he
      exact ht1 he
    cases us with
    | nil =>
      show splitWSAux (joinSp [t]) [] = [t]
      have hjt : joinSp [t] = t := rfl
      rw [hjt]
      have := splitWSAux_token t ht2 [] []
      rw [List.append_nil] at this
      rw [this]
      simp only [splitWSAux, List.append_nil, htrev]
      simp [List.reverse_reverse]
    | cons u vs =>
      show splitWSAux (joinSp (t :: u :: vs)) [] = t :: u :: vs
      have hj : joinSp (t :: u :: vs) = t ++ 32 :: joinSp (u :: vs) := rfl
      rw [hj, splitWSAux_token t ht2 (32 :: joinSp (u :: vs)) [], List.append_nil]
      have h32 : isWS 32 = true := by decide
      simp only [splitWSAux, h32, if_true, htrev]
      simp only [Bool.false_eq_true, if_false, List.reverse_reverse]
      congr 1
      exact ih fun x hx => h x (List.mem_cons_of_mem t hx)

/-- Characters of a space-joined token list are spaces or token characters. -/
theorem mem_joinSp {c : Nat} :
    ∀ {ts : List Str}, c ∈ joinSp ts → c = 32 ∨ ∃ t ∈ ts, c ∈ t := by
  intro ts
  induction ts with
  | nil => intro h; cases h
  | cons t us ih =>
    cases us with
    | nil =>
      intro h
      exact Or.inr ⟨t, List.mem_cons_self t [], h⟩
    | cons u vs =>
      intro h
      have hj : joinSp (t :: u :: vs) = t ++ 32 :: joinSp (u :: vs) := rfl
      rw [hj] at h
      rcases List.mem_append.1 h with h | h
      · exact Or.inr ⟨t, List.mem_cons_self t (u :: vs), h⟩
      · rcases List.mem_cons.1 h with rfl | h
        · exact Or.inl rfl
        · rcases ih h with h32 | ⟨w, hw, hc⟩
          · exact Or.inl h32
          · exact Or.inr ⟨w, List.mem_cons_of_mem t hw, hc⟩

/-- C10: the output of name normalization is a space-join of nonempty
lowercase-alphabetic tokens - so every output character is a lowercase letter
or a single separating space, digits and punctuation are gone, and there is no
boundary whitespace - and normalization is idempotent. -/
theorem c10_normalize_shape (s : Str) :
    (∃ ts, normalize_name s = joinSp ts ∧
      ∀ t ∈ ts, t ≠ [] ∧ ∀ c ∈ t, 97 ≤ c ∧ c ≤ 122) ∧
    (∀ c ∈ normalize_name s, c = 32 ∨ (97 ≤ c ∧ c ≤ 122)) ∧
    normalize_name (normalize_name s) = normalize_name s := by
  have hform : normalize_name s = joinSp (sortToks (splitWS (cleanStr s))) :=
    normalize_name_eq s
  have htoks : ∀ t ∈ sortToks (splitWS (cleanStr s)),
      t ≠ [] ∧ ∀ c ∈ t, isWS c = false ∧ 97 ≤ c ∧ c ≤ 122 := by
    intro t ht
    have hmem : t ∈ splitWS (cleanStr s) :=
      (List.perm_insertionSort tokLE (splitWS (cleanStr s))).mem_iff.1 ht
    obtain ⟨h1, h2⟩ := splitWS_tokens (cleanStr s) t hmem
    refine ⟨h1, fun c hc => ?_⟩
    obtain ⟨hnw, hcs⟩ := h2 c hc
    exact ⟨hnw, clean_char_lower hcs hnw⟩
  refine ⟨⟨sortToks (splitWS (cleanStr s)), hform,
      fun t ht => ⟨(htoks t ht).1, fun c hc => ((htoks t ht).2 c hc).2⟩⟩, ?_, ?_⟩
  · intro c hc
    rw [hform] at hc
    rcases mem_joinSp hc with h32 | ⟨t, ht, hct⟩
    · exact Or.inl h32
    · exact Or.inr (((htoks t ht).2 c hct).2)
  · conv_lhs => rw [hform]
    rw [normalize_name_eq (joinSp (sortToks (splitWS (cleanStr s))))]
    have hchars : ∀ c ∈ joinSp (sortToks (splitWS (cleanStr s))),
        (97 ≤ c ∧ c ≤ 122) ∨ c = 32 := by
      intro c hc
      rcases mem_joinSp hc with h32 | ⟨t, ht, hct⟩
      · exact Or.inr h32
      · exact Or.inl (((htoks t ht).2 c hct).2)
    rw [cleanStr_eq_self _ hchars]
    rw [splitWS_joinSp _ (fun t ht => ⟨(htoks t ht).1,
      fun c hc => ((htoks t ht).2 c hc).1⟩)]
    rw [sortToks_eq_self_of_sorted (show List.Sorted tokLE (sortToks (splitWS (cleanStr s)))
      from List.sorted_insertionSort tokLE _)]
    exact hform.symm

/-! The name-column detector (source lines 25-27). -/

/-- The candidate header names of `find_name_column` (source line 26). -/
def nameCandidates : List Str :=
  [strCP "name", strCP "golfer", strCP "player", strCP "player name"]

/-- Python `str.lower` on a header. -/
def lowerStr (s : Str) : Str := s.map lowerCP

/-- The function `find_name_column` (source lines 25-27): the first column
whose lower-cased header is a candidate, otherwise the first column of the
table; `none` models the IndexError a zero-column table would raise. -/
def find_name_column (cols : List Str) : Option Str :=
  match cols.filter (fun c => decide (lowerStr c ∈ nameCandidates)) with
  | c :: _ => some c
  | [] => cols.head?

/-- C5 counterexample: a table whose headers resolve to no name candidate does
not fail - `find_name_column` silently guesses the first column. -/
theorem c5_counterexample :
    (∀ c ∈ [strCP "Foo", strCP "Bar"], lowerStr c ∉ nameCandidates) ∧
    find_name_column [strCP "Foo", strCP "Bar"] = some (strCP "Foo") := by decide

/-- C5 amended: when no column header lower-cases to one of the candidates
`name`, `golfer`, `player`, `player name`, the reconciler does not raise a
schema error; it falls back to the first column of the table. -/
theorem c5_amended (cols : List Str) (h : ∀ c ∈ cols, lowerStr c ∉ nameCandidates) :
    find_name_column cols = cols.head? := by
  unfold find_name_column
  have hnil : cols.filter (fun c => decide (lowerStr c ∈ nameCandidates)) = [] := by
    rw [List.filter_eq_nil_iff]
    intro c hc
    simp only [decide_eq_true_iff]
    exact h c hc
  rw [hnil]

/-- Witness for the amended C5 on the candidate-free header table. -/
theorem c5_witness :
    find_name_column [strCP "Foo", strCP "Bar"] = [strCP "Foo", strCP "Bar"].head? ∧
    ([strCP "Foo", strCP "Bar"] : List Str).head? = some (strCP "Foo") :=
  ⟨c5_amended _ (by decide), by decide⟩

/-! The fuzzy reconciler (source lines 88-97), with the difflib ratio. -/

/-- Length of the common prefix of two strings. -/
def runLen : Str → Str → Nat
  | a :: as, b :: bs => if a = b then runLen as bs + 1 else 0
  | _, _ => 0

/-- difflib `SequenceMatcher.find_longest_match` over the full ranges, without
the junk heuristics (autojunk only activates on sequences of length at least
200, far beyond player names): the longest matching block, starting earliest
in `a` and, among those, earliest in `b`. -/
def longestMatch (a b : Str) : Nat × Nat × Nat :=
  (List.range a.length).foldl (fun best i =>
    (List.range b.length).foldl (fun best j =>
      let k := runLen (a.drop i) (b.drop j)
      if best.2.2 < k then (i, j, k) else best) best) (0, 0, 0)

/-- Total size of the difflib matching blocks, by the standard recursion on
both sides of the longest match.  The fuel `|a| + |b| + 1` dominates the
recursion depth because each recursive call strictly shrinks the combined
length of the two slices. -/
def matchTotalF : Nat → Str → Str → Nat
  | 0, _, _ => 0
  | fuel + 1, a, b =>
    let m := longestMatch a b
    if m.2.2 = 0 then 0
    else matchTotalF fuel (a.take m.1) (b.take m.2.1) + m.2.2 +
      matchTotalF fuel (a.drop (m.1 + m.2.2)) (b.drop (m.2.1 + m.2.2))

/-- Total matched characters of difflib `get_matching_blocks`. -/
def matchTotal (a b : Str) : Nat := matchTotalF (a.length + b.length + 1) a b

/-- difflib `SequenceMatcher.ratio()`: `2 * M / (len(a) + len(b))`, and 1.0
when both sequences are empty.  The float arithmetic of difflib is idealized
to exact rationals, as everywhere in this embedding. -/
def simScore (a b : Str) : ℚ :=
  if a.length + b.length = 0 then 1
  else 2 * (matchTotal a b : ℚ) / ((a.length : ℚ) + (b.length : ℚ))

/-- Python strict string comparison, the tie-break inside `heapq.nlargest` on
(score, string) pairs. -/
def strGTb (a b : Str) : Bool := ! tokLEb a b

/-- difflib `get_close_matches(word, possibilities, n=1, cutoff=0.8)`: keep
the possibilities whose ratio reaches the cutoff (the two quick-ratio
pre-filters are upper bounds of the ratio, so they reject nothing the ratio
accepts), then pick the largest by the pair (ratio, string) - the behaviour of
`nlargest(1)` on (score, string) tuples, which keeps the first entry on exact
ties. -/
def bestMatch (w : Str) (poss : List Str) : Option Str :=
  (poss.filter (fun x => decide ((4 : ℚ)/5 ≤ simScore x w))).foldl (fun best x =>
    match best with
    | none => some x
    | some y =>
      if simScore y w < simScore x w ∨ (simScore x w = simScore y w ∧ strGTb x y = true)
      then some x else some y) none

/-- The joined pairs one Source-A row contributes to the merge (source lines
92-96): nothing without an accepted match, otherwise one pair per DataGolf row
carrying the matched normalized name, in table order. -/
def rowJoin (bNorms : List Str) (i : Nat) (na : Str) : List (Nat × Nat) :=
  match bestMatch na bNorms with
  | none => []
  | some m => (bNorms.enum.filter (fun jn => jn.2 == m)).map (fun jn => (i, jn.1))

/-- The reconciler (source lines 88-97) as the list of joined (A-index,
B-index) pairs produced by `pd.merge(rg_df, dg_df, left_on=Matched_DG_Norm,
right_on=Name_norm)`, in the left-major order pandas produces. -/
def reconcile (aNames bNames : List Str) : List (Nat × Nat) :=
  ((aNames.map normalize_name).enum).flatMap
    (fun ina => rowJoin (bNames.map normalize_name) ina.1 ina.2)

theorem rowJoin_fst {bNorms : List Str} {i : Nat} {na : Str} :
    ∀ p ∈ rowJoin bNorms i na, p.1 = i := by
  intro p hp
  unfold rowJoin at hp
  cases hb : bestMatch na bNorms with
  | none => rw [hb] at hp; cases hp
  | some m =>
    rw [hb] at hp
    obtain ⟨jn, _, rfl⟩ := List.mem_map.1 hp
    rfl

/-- Selecting the pairs of one A-index from the enumerated flatMap isolates
the block of that index. -/
theorem filter_fst_flatMap_enumFrom {β : Type} (f : Nat → Str → List (Nat × β))
    (hf : ∀ k a p, p ∈ f k a → p.1 = k) :
    ∀ (l : List Str) (n i : Nat),
      ((l.enumFrom n).flatMap (fun ka => f ka.1 ka.2)).filter (fun p => decide (p.1 = i)) =
      if n ≤ i then (l.get? (i - n)).elim [] (f i) else [] := by
  intro l
  induction l with
  | nil =>
    intro n i
    by_cases h : n ≤ i <;> simp [h]
  | cons a t ih =>
    intro n i
    rw [show (a :: t).enumFrom n = (n, a) :: t.enumFrom (n + 1) from rfl,
      List.flatMap_cons, List.filter_append, ih (n + 1) i]
    by_cases hin : i = n
    · subst hin
      have hself : (f i a).filter (fun p => decide (p.1 = i)) = f i a := by
        rw [List.filter_eq_self]
        intro p hp
        exact decide_eq_true (hf i a p hp)
      rw [hself, if_neg (by omega), if_pos (le_refl i)]
      simp
    · have hnil : (f n a).filter (fun p => decide (p.1 = i)) = [] := by
        rw [List.filter_eq_nil_iff]
        intro p hp
        simp only [decide_eq_true_iff]
        rw [hf n a p hp]
        omega
      rw [hnil, List.nil_append]
      by_cases hni : n ≤ i
      · rw [if_pos (by omega), if_pos hni]
        have hsub : i - n = (i - (n + 1)) + 1 := by omega
        rw [hsub, List.get?_cons_succ]
      · rw [if_neg (by omega), if_neg hni]

/-- The pairs of A-index `i` in the joined table are exactly the block that
match of that row contributes. -/
theorem reconcile_filter (aNames bNames : List Str) (i : Nat) :
    (reconcile aNames bNames).filter (fun p => decide (p.1 = i)) =
      ((aNames.map normalize_name).get? i).elim []
        (rowJoin (bNames.map normalize_name) i) := by
  unfold reconcile
  have h := filter_fst_flatMap_enumFrom
    (fun k na => rowJoin (bNames.map normalize_name) k na)
    (fun k a p hp => rowJoin_fst p hp) (aNames.map normalize_name) 0 i
  simpa using h

theorem snd_mem_of_mem_enumFrom {α : Type} :
    ∀ {l : List α} {n : Nat} {p : Nat × α}, p ∈ l.enumFrom n → p.2 ∈ l := by
  intro l
  induction l with
  | nil => intro n p h; cases h
  | cons a t ih =>
    intro n p h
    rw [show (a :: t).enumFrom n = (n, a) :: t.enumFrom (n + 1) from rfl] at h
    rcases List.mem_cons.1 h with rfl | h
    · exact List.mem_cons_self a t
    · exact List.mem_cons_of_mem a (ih h)

/-- On a duplicate-free column, at most one enumerated entry carries a given
value. -/
theorem enumFrom_filter_snd_len {m : Str} :
    ∀ (l : List Str) (n : Nat), l.Nodup →
      ((l.enumFrom n).filter (fun jn => jn.2 == m)).length ≤ 1 := by
  intro l
  induction l with
  | nil => intro n _; exact Nat.zero_le 1
  | cons b t ih =>
    intro n hnd
    rw [List.nodup_cons] at hnd
    rw [show (b :: t).enumFrom n = (n, b) :: t.enumFrom (n + 1) from rfl, List.filter_cons]
    by_cases hb : b = m
    · subst hb
      rw [if_pos (by simp), List.length_cons]
      have hzero : ((t.enumFrom (n + 1)).filter (fun jn => jn.2 == b)).length = 0 := by
        rw [List.length_eq_zero, List.filter_eq_nil_iff]
        intro jn hjn hbeq
        have hsnd : jn.2 ∈ t := snd_mem_of_mem_enumFrom hjn
        have he : jn.2 = b := by simpa using hbeq
        exact hnd.1 (he ▸ hsnd)
      omega
    · rw [if_neg (by simp [hb])]
      exact ih (n + 1) hnd.2

set_option maxRecDepth 8000 in
/-- C6 counterexample: with Source A `["Jon Rahm"]` and Source B
`["Rahm, Jon", "Jon  Rahm"]` - two B rows sharing the normalized name
`jon rahm` - the single A row produces two joined rows, contradicting the
claimed at-most-one pairing. -/
theorem c6_counterexample :
    reconcile [strCP "Jon Rahm"] [strCP "Rahm, Jon", strCP "Jon  Rahm"] = [(0, 0), (0, 1)] ∧
    2 ≤ ((reconcile [strCP "Jon Rahm"] [strCP "Rahm, Jon", strCP "Jon  Rahm"]).filter
      (fun p => decide (p.1 = 0))).length := by decide

/-- C6 amended: when the normalized Source-B names are pairwise distinct, each
Source-A row yields at most one joined row; and - unconditionally in the model,
stated here under the same hypothesis - a Source-A row whose best match is
rejected contributes no joined row at all (dropped, never null-filled). -/
theorem c6_amended (aNames bNames : List Str)
    (hb : (bNames.map normalize_name).Nodup) :
    (∀ i : Nat,
      ((reconcile aNames bNames).filter (fun p => decide (p.1 = i))).length ≤ 1) ∧
    (∀ i na, (aNames.map normalize_name).get? i = some na →
      bestMatch na (bNames.map normalize_name) = none →
      (reconcile aNames bNames).filter (fun p => decide (p.1 = i)) = []) := by
  constructor
  · intro i
    rw [reconcile_filter]
    cases hg : (aNames.map normalize_name).get? i with
    | none => simp
    | some na =>
      simp only [Option.elim]
      unfold rowJoin
      cases hbm : bestMatch na (bNames.map normalize_name) with
      | none => simp
      | some m =>
        rw [List.length_map]
        exact enumFrom_filter_snd_len (bNames.map normalize_name) 0 hb
  · intro i na hget hnone
    rw [reconcile_filter, hget]
    simp only [Option.elim]
    unfold rowJoin
    rw [hnone]

set_option maxRecDepth 8000 in
/-- Witness for the amended C6: one matched and one unmatched A row against a
duplicate-free B table. -/
theorem c6_witness :
    ((reconcile [strCP "Jon Rahm", strCP "Zzz Qqq"] [strCP "Rahm, Jon"]).filter
      (fun p => decide (p.1 = 0))).length ≤ 1 ∧
    (reconcile [strCP "Jon Rahm", strCP "Zzz Qqq"] [strCP "Rahm, Jon"]).filter
      (fun p => decide (p.1 = 1)) = [] := by
  constructor
  · exact (c6_amended _ _ (by decide)).1 0
  · exact (c6_amended _ _ (by decide)).2 1 (normalize_name (strCP "Zzz Qqq"))
      (by decide) (by decide)
